import Mathlib

/-!
# Verification of the NeMo export/injection utilities

A shallow embedding of the two utilities in this repository fragment:

* `nemo/utils/export_utils.py` — the Module Expansion Engine: expanding
  1-D layers (`Conv1d`, `BatchNorm1d`, pooling) into their 2-D
  counterparts and substituting them into a model hierarchy by dotted
  paths (`expand_Conv1D`, `expand_BatchNorm1d`, `simple_expand`,
  `swap_expanded`, `auto_expand`).
* `nemo/utils/injection_utils.py` — the Parameter-Filtering Invoker
  (`run_injected`).

The numeric tensor library (torch) is an opaque external dependency of
the repository; its layer forward passes and random sampler are modelled
by an explicit `Torch` oracle structure, while structural tensor
operations (`unsqueeze`, `squeeze`, `mean`) are given their standard
meaning on a concrete tensor representation with rational entries
(floats are modelled as rationals).  Python exceptions are modelled with
`Except String`; `None` with `Option`.
-/

namespace NeMo

/-! ## Rational scalar arithmetic

Floating-point scalars are modelled as rationals.  The standard `ℚ`
operations of the library are irreducible for the kernel, so the few
operations the source computes with are spelled out via `mkRat`, which
evaluates; they agree with the textbook operations. -/

/-- `a + b` on scalars. -/
def qadd (a b : ℚ) : ℚ :=
  mkRat (a.num * (b.den : Int) + b.num * (a.den : Int)) (a.den * b.den)

/-- `a - b` on scalars. -/
def qsub (a b : ℚ) : ℚ :=
  mkRat (a.num * (b.den : Int) - b.num * (a.den : Int)) (a.den * b.den)

/-- `abs(a)` on scalars. -/
def qabs (a : ℚ) : ℚ :=
  mkRat (a.num.natAbs : Int) a.den

/-- The sum of a list of scalars. -/
def qsum (l : List ℚ) : ℚ :=
  l.foldr qadd (mkRat 0 1)

/-- `a / n` for a natural count `n` (`a / 0` modelled as `0`, torch's
NaN; it plays no role in any claim). -/
def qdivNat (a : ℚ) (n : Nat) : ℚ :=
  mkRat a.num (a.den * n)

/-! ## Tensors

A tensor is modelled by its shape and its flattened data.  Python object
identity of a tensor is modelled by equality of this value. -/

structure Tensor where
  shape : List Nat
  data : List ℚ
deriving DecidableEq, Repr

namespace Tensor

/-- `t.unsqueeze(-1)`: append one trailing singleton dimension; the data
is shared, not copied. -/
def unsqueezeLast (t : Tensor) : Tensor :=
  { shape := t.shape ++ [1], data := t.data }

/-- `t.squeeze()`: drop every dimension of size 1; the data is unchanged. -/
def squeeze (t : Tensor) : Tensor :=
  { shape := t.shape.filter (fun d => d ≠ 1), data := t.data }

/-- `t.mean()`: the scalar mean over all entries (torch returns a scalar
tensor; we model the scalar itself).  The empty-tensor mean (NaN in
torch) is modelled as `0`; it plays no role in any claim. -/
def mean (t : Tensor) : ℚ :=
  qdivNat (qsum t.data) t.data.length

/-- `torch.ones(n)`. -/
def ones (n : Nat) : Tensor :=
  { shape := [n], data := List.replicate n 1 }

/-- `torch.zeros(n)`. -/
def zeros (n : Nat) : Tensor :=
  { shape := [n], data := List.replicate n 0 }

/-- The scalar zero tensor (initial `num_batches_tracked`). -/
def zeroScalar : Tensor :=
  { shape := [], data := [0] }

end Tensor

/-! ## The Parameter-Filtering Invoker (`nemo/utils/injection_utils.py`)

A Python value, as far as the tests and claims observe it. -/

inductive Value where
  | null
  | int (n : Int)
  | str (s : String)
  | tuple (vs : List Value)
  | dict (entries : List (String × Value))

/-- The kinds of `inspect.Parameter` exercised by this repository:
positional-or-keyword, keyword-only, and variadic keyword (`**kwargs`).
-/
inductive ParamKind where
  | posOrKw
  | kwOnly
  | varKw
deriving DecidableEq, Repr

/-- One parameter of a callable's declared signature: its name, kind and
(optionally) declared default value. -/
structure Param where
  name : String
  kind : ParamKind
  default : Option Value

/-- `set(signature.parameters.keys())`: the declared parameter names
(the variadic-keyword parameter's own name included). -/
def paramNames (sig : List Param) : List String :=
  sig.map Param.name

/-- The names that a keyword argument can bind to directly (every
declared parameter except the variadic-keyword one). -/
def kwBindableNames (sig : List Param) : List String :=
  (sig.filter (fun p => p.kind ≠ ParamKind.varKw)).map Param.name

/-- The positional phase of `inspect.Signature.bind`: assign positional
arguments to the leading parameters in declaration order.  A positional
argument reaching a keyword-only or variadic-keyword parameter (or no
parameter at all) is a `TypeError`. -/
def bindPositional : List Param → List Value → Except String (List (String × Value))
  | _, [] => .ok []
  | [], _ :: _ => .error "TypeError: too many positional arguments"
  | p :: ps, a :: as =>
    match p.kind with
    | ParamKind.posOrKw =>
      match bindPositional ps as with
      | .error e => .error e
      | .ok rest => .ok ((p.name, a) :: rest)
    | _ => .error "TypeError: too many positional arguments"

/-- The keyword phase of `inspect.Signature.bind` fused with
`BoundArguments.apply_defaults` and the final call
`fn(*bound_args.args, **bound_args.kwargs)`: produce, in declaration
order, the value each parameter receives.  `posBound` is the result of
the positional phase; `kwargs` the supplied keyword arguments;
`allKwNames` the keyword-bindable names of the whole signature.  A
keyword argument for a positionally bound parameter is a `TypeError`
(multiple values); an unbound parameter without default is a `TypeError`
(missing required argument); an unbound variadic-keyword parameter
collects every keyword argument matching no keyword-bindable name
(`apply_defaults` gives it `{}` when that set is empty). -/
def bindOne (posBound kwargs : List (String × Value)) (allKwNames : List String)
    (p : Param) : Except String (String × Value) :=
  match posBound.lookup p.name with
  | some v =>
    if kwargs.any (fun kv => kv.1 = p.name) then
      .error "TypeError: multiple values for argument"
    else .ok (p.name, v)
  | none =>
    match p.kind with
    | ParamKind.varKw =>
      .ok (p.name, Value.dict (kwargs.filter (fun kv => kv.1 ∉ allKwNames)))
    | _ =>
      match kwargs.lookup p.name with
      | some v => .ok (p.name, v)
      | none =>
        match p.default with
        | some d => .ok (p.name, d)
        | none => .error "TypeError: missing a required argument"

/-- The parameter-by-parameter pass over the whole declared signature. -/
def bindEach (posBound kwargs : List (String × Value)) (allKwNames : List String) :
    List Param → Except String (List (String × Value))
  | [] => .ok []
  | p :: ps =>
    match bindOne posBound kwargs allKwNames p with
    | .error e => .error e
    | .ok ent =>
      match bindEach posBound kwargs allKwNames ps with
      | .error e => .error e
      | .ok rest => .ok (ent :: rest)

/-- `signature.bind(*args, **kwargs)` followed by `apply_defaults` and
the reconstruction of the final call: the environment (parameter name →
received value, in declaration order) the callable's body runs in.
A keyword argument matching no keyword-bindable name, with no
variadic-keyword parameter declared, is a `TypeError`. -/
def bindArgs (sig : List Param) (args : List Value) (kwargs : List (String × Value)) :
    Except String (List (String × Value)) :=
  match bindPositional sig args with
  | .error e => .error e
  | .ok posBound =>
    if (!sig.any (fun p => p.kind = ParamKind.varKw))
        && kwargs.any (fun kv => kv.1 ∉ kwBindableNames sig) then
      .error "TypeError: got an unexpected keyword argument"
    else
      bindEach posBound kwargs (kwBindableNames sig) sig

/-- A Python callable, as `run_injected` observes it: its introspected
signature and its body (a function of the bound environment). -/
structure PyFunction where
  sig : List Param
  body : List (String × Value) → Value

/-- The environment `run_injected` binds: drop every named argument
whose key is not among the declared parameter names
(`out_kwargs = {k: v for (k, v) in kwargs.items() if k in fn_arg_names}`),
then `signature.bind(*args, **out_kwargs)` and `apply_defaults`. -/
def injectedEnv (fn : PyFunction) (args : List Value) (kwargs : List (String × Value)) :
    Except String (List (String × Value)) :=
  let out_kwargs := kwargs.filter (fun kv => kv.1 ∈ paramNames fn.sig)
  bindArgs fn.sig args out_kwargs

/-- `run_injected(fn, *args, **kwargs)` from
`nemo/utils/injection_utils.py`: filter the named arguments to the
declared parameter names, bind against the declared signature with the
callable's own defaults applied, and return the callable's result
unmodified. -/
def run_injected (fn : PyFunction) (args : List Value) (kwargs : List (String × Value)) :
    Except String Value :=
  match injectedEnv fn args kwargs with
  | .error e => .error e
  | .ok env => .ok (fn.body env)

/-- The test callable `foo(x, y=1, *, z=None)` from
`tests/utils/test_injection_utils.py`; its body returns `(x, y, z)`. -/
def fooSig : List Param :=
  [⟨"x", ParamKind.posOrKw, none⟩,
   ⟨"y", ParamKind.posOrKw, some (Value.int 1)⟩,
   ⟨"z", ParamKind.kwOnly, some Value.null⟩]

/-- The body of `foo`: `return (x, y, z)`. -/
def fooBody (env : List (String × Value)) : Value :=
  Value.tuple [(env.lookup "x").getD Value.null,
               (env.lookup "y").getD Value.null,
               (env.lookup "z").getD Value.null]

/-- The callable `foo` itself. -/
def foo : PyFunction := ⟨fooSig, fooBody⟩

/-! ## Layer data (`nemo/utils/export_utils.py`)

The attributes of each layer kind that the expansion engine reads.
torch stores 1-D convolution geometry as 1-tuples `(k,)`; the code only
ever reads component `[0]`, so the model stores that component. -/

structure Conv1d where
  in_channels : Nat
  out_channels : Nat
  kernel_size : Nat
  stride : Nat
  padding : Nat
  dilation : Nat
  groups : Nat
  padding_mode : String
  weight : Tensor
  bias : Option Tensor
deriving DecidableEq, Repr

structure Conv2d where
  in_channels : Nat
  out_channels : Nat
  kernel_size : Nat × Nat
  stride : Nat × Nat
  padding : Nat × Nat
  dilation : Nat × Nat
  groups : Nat
  padding_mode : String
  weight : Tensor
  bias : Option Tensor
deriving DecidableEq, Repr

/-- A 1-D batch-normalization node: scalar configuration plus its
learned parameters (`weight`, `bias`, present iff `affine`) and running
statistics (`running_mean`, `running_var`, `num_batches_tracked`,
present iff `track_running_stats`); torch registers the absent ones as
`None`, which keeps them out of the state dict. -/
structure BatchNorm1d where
  num_features : Nat
  eps : ℚ
  momentum : Option ℚ
  affine : Bool
  track_running_stats : Bool
  weight : Option Tensor
  bias : Option Tensor
  running_mean : Option Tensor
  running_var : Option Tensor
  num_batches_tracked : Option Tensor
deriving DecidableEq, Repr

/-- A 2-D batch-normalization node; same attributes as the 1-D one. -/
structure BatchNorm2d where
  num_features : Nat
  eps : ℚ
  momentum : Option ℚ
  affine : Bool
  track_running_stats : Bool
  weight : Option Tensor
  bias : Option Tensor
  running_mean : Option Tensor
  running_var : Option Tensor
  num_batches_tracked : Option Tensor
deriving DecidableEq, Repr

/-- `nn.AvgPool1d` configuration, in the order of its `__constants__`
(`kernel_size, stride, padding, ceil_mode, count_include_pad`); scalar
geometry components as in `Conv1d`. -/
structure AvgPool1d where
  kernel_size : Nat
  stride : Nat
  padding : Nat
  ceil_mode : Bool
  count_include_pad : Bool
deriving DecidableEq, Repr

/-- `nn.AvgPool2d` configuration (its constructor's leading positional
parameters coincide with `AvgPool1d.__constants__` in order). -/
structure AvgPool2d where
  kernel_size : Nat
  stride : Nat
  padding : Nat
  ceil_mode : Bool
  count_include_pad : Bool
deriving DecidableEq, Repr

/-- The kind of a node in the model hierarchy: one of the layer kinds
the default rule table knows, or any other module kind, identified by
its runtime type name. -/
inductive Kind where
  | conv1d (d : Conv1d)
  | conv2d (d : Conv2d)
  | batchNorm1d (d : BatchNorm1d)
  | batchNorm2d (d : BatchNorm2d)
  | adaptiveAvgPool1d (output_size : Nat)
  | adaptiveAvgPool2d (output_size : Nat)
  | avgPool1d (d : AvgPool1d)
  | avgPool2d (d : AvgPool2d)
  | other (name : String)
deriving DecidableEq, Repr

/-- `type(m).__name__`, the string key used for rule-table dispatch. -/
def Kind.typeName : Kind → String
  | .conv1d _ => "Conv1d"
  | .conv2d _ => "Conv2d"
  | .batchNorm1d _ => "BatchNorm1d"
  | .batchNorm2d _ => "BatchNorm2d"
  | .adaptiveAvgPool1d _ => "AdaptiveAvgPool1d"
  | .adaptiveAvgPool2d _ => "AdaptiveAvgPool2d"
  | .avgPool1d _ => "AvgPool1d"
  | .avgPool2d _ => "AvgPool2d"
  | .other n => n

/-! ## The model hierarchy

A tree of kind-tagged nodes; each node's `_modules` is an ordered map
from child name to child node (`Children`, an association list in
insertion order, mirroring the Python dict).  `uid` models Python object
identity: an in-place mutation of a node's children keeps its `uid`;
substituting a node installs a different object. -/

mutual
inductive Module : Type where
  | mk : Kind → Children → Nat → Module
inductive Children : Type where
  | nil : Children
  | cons : String → Module → Children → Children
end

def Module.kind : Module → Kind
  | .mk k _ _ => k

def Module.children : Module → Children
  | .mk _ cs _ => cs

def Module.uid : Module → Nat
  | .mk _ _ u => u

/-- Dict lookup `cs[name]` on a node's `_modules`. -/
def Children.lookup : Children → String → Option Module
  | .nil, _ => none
  | .cons n c rest, k => if n = k then some c else Children.lookup rest k

/-- Dict assignment `cs[name] = v`: replace the value at an existing
key, keeping its position; append at the end for a new key. -/
def Children.set : Children → String → Module → Children
  | .nil, k, v => .cons k v .nil
  | .cons n c rest, k, v =>
    if n = k then .cons k v rest else .cons n c (Children.set rest k v)

def Children.toList : Children → List (String × Module)
  | .nil => []
  | .cons n c rest => (n, c) :: rest.toList

def Children.keys (cs : Children) : List String :=
  cs.toList.map Prod.fst

/-- `m._modules[name]` (raises `KeyError`, i.e. `none`, when absent). -/
def Module.getChild (m : Module) (name : String) : Option Module :=
  m.children.lookup name

/-- `m._modules[name] = c`. -/
def Module.setChild (m : Module) (name : String) (c : Module) : Module :=
  match m with
  | .mk k cs u => .mk k (cs.set name c) u

/-- Follow a chain of child lookups from a node. -/
def walk : List String → Module → Option Module
  | [], m => some m
  | s :: rest, m =>
    match m.getChild s with
    | none => none
    | some c => walk rest c

/-- `path.split(".")` (always nonempty; `"".split(".") = [""]`). -/
def splitDotAux : List Char → List Char → List String
  | [], acc => [String.mk acc.reverse]
  | c :: cs, acc =>
    if c = '.' then String.mk acc.reverse :: splitDotAux cs []
    else splitDotAux cs (c :: acc)

/-- `path.split(".")` on a string. -/
def splitDot (s : String) : List String :=
  splitDotAux s.data []

/-- The full name `named_modules` gives a child: the child name appended
to the enclosing name with a dot, the dot omitted under the empty root
name. -/
def childPrefix (pre n : String) : String :=
  if pre = "" then n else pre ++ "." ++ n

mutual
/-- `model.named_modules()` with the given name for the root: the root
itself first, then every descendant in depth-first order, each under its
full dotted name. -/
def namedModulesAux (pre : String) (m : Module) : List (String × Module) :=
  match m with
  | .mk k cs u => (pre, .mk k cs u) :: childrenNamed pre cs
def childrenNamed (pre : String) : Children → List (String × Module)
  | .nil => []
  | .cons n c rest =>
    namedModulesAux (childPrefix pre n) c ++ childrenNamed pre rest
end

/-- `model.named_modules()` (the root is enumerated under the name `""`). -/
def namedModules (m : Module) : List (String × Module) :=
  namedModulesAux "" m

/-! ## The numeric tensor library

The spec treats the tensor library as an opaque external dependency; the
layer forward passes and the random sampler are therefore modelled as an
oracle.  `rand i shape` is the tensor the sampler produces for the
`i`-th draw of a validation run. -/

structure Torch where
  rand : Nat → List Nat → Tensor
  conv1dForward : Conv1d → Tensor → Tensor
  conv2dForward : Conv2d → Tensor → Tensor

/-! ## `expand_Conv1D` -/

/-- The 2-D convolution node `expand_Conv1D` constructs
(`export_utils.py` lines 19–30): kernel/stride/dilation paired with 1,
padding paired with 0, channel counts, groups and padding mode
preserved.  The `nn.Conv2d` constructor's freshly initialized weight and
bias are immediately overwritten (`conv2d.bias = conv1d.bias`;
`conv2d.weight = nn.Parameter(conv1d.weight.unsqueeze(-1))`), so the
node is built with the final values directly. -/
def expandedConv (c : Conv1d) : Conv2d :=
  { in_channels := c.in_channels
    out_channels := c.out_channels
    kernel_size := (c.kernel_size, 1)
    stride := (c.stride, 1)
    padding := (c.padding, 0)
    dilation := (c.dilation, 1)
    groups := c.groups
    padding_mode := c.padding_mode
    weight := c.weight.unsqueezeLast
    bias := c.bias }

/-- One iteration of the validation loop in `expand_Conv1D`:
`sample_input = torch.rand(1, conv1d.in_channels, 256)`;
`close = conv1d(sample_input).mean() -
conv2d(sample_input.unsqueeze(-1)).squeeze().mean()`; the iteration
fails when `close.abs() > 1e-6`. -/
def convCheckFails (torch : Torch) (c : Conv1d) (conv2d : Conv2d) (i : Nat) : Bool :=
  let sample_input := torch.rand i [1, c.in_channels, 256]
  let close := qsub (torch.conv1dForward c sample_input).mean
    ((torch.conv2dForward conv2d sample_input.unsqueezeLast).squeeze).mean
  qabs close > mkRat 1 1000000

/-- `expand_Conv1D(conv1d)`: `None` for a node that is not a 1-D
convolution; otherwise construct the 2-D node and run the two-iteration
validation loop, raising `ValueError("Unable to expand Conv1D to
Conv2D")` on a failed iteration.  A freshly constructed `nn.Conv2d` has
no submodules, hence `Children.nil`. -/
def expand_Conv1D (torch : Torch) (m : Module) : Except String (Option Module) :=
  match m.kind with
  | Kind.conv1d c =>
    let conv2d := expandedConv c
    if convCheckFails torch c conv2d 0 then
      .error "ValueError: Unable to expand Conv1D to Conv2D"
    else if convCheckFails torch c conv2d 1 then
      .error "ValueError: Unable to expand Conv1D to Conv2D"
    else .ok (some (Module.mk (Kind.conv2d conv2d) Children.nil 0))
  | _ => .ok none

/-! ## `expand_BatchNorm1d` -/

/-- The `torch.nn.BatchNorm2d` constructor: learned parameters exist iff
`affine` (weight all ones, bias all zeros) and running statistics exist
iff `track_running_stats` (mean zeros, variance ones, update count 0). -/
def batchNorm2dInit (num_features : Nat) (eps : ℚ) (momentum : Option ℚ)
    (affine track_running_stats : Bool) : BatchNorm2d :=
  { num_features := num_features
    eps := eps
    momentum := momentum
    affine := affine
    track_running_stats := track_running_stats
    weight := if affine then some (Tensor.ones num_features) else none
    bias := if affine then some (Tensor.zeros num_features) else none
    running_mean := if track_running_stats then some (Tensor.zeros num_features) else none
    running_var := if track_running_stats then some (Tensor.ones num_features) else none
    num_batches_tracked := if track_running_stats then some Tensor.zeroScalar else none }

/-- `state_dict()` of a batch-normalization node: its non-`None`
parameters then its non-`None` buffers, under their registered names. -/
def bnStateDict (weight bias running_mean running_var num_batches_tracked : Option Tensor) :
    List (String × Tensor) :=
  (match weight with | some t => [("weight", t)] | none => []) ++
  (match bias with | some t => [("bias", t)] | none => []) ++
  (match running_mean with | some t => [("running_mean", t)] | none => []) ++
  (match running_var with | some t => [("running_var", t)] | none => []) ++
  (match num_batches_tracked with | some t => [("num_batches_tracked", t)] | none => [])

/-- Loading one entry of a strict `load_state_dict`: a key present in
the incoming dict but not on the module (or vice versa) is a
`RuntimeError`; a shape mismatch between the incoming tensor and the
existing one is a `RuntimeError`; otherwise the incoming values are
copied in. -/
def loadField (sd : List (String × Tensor)) (key : String) (cur : Option Tensor) :
    Except String (Option Tensor) :=
  match List.lookup key sd, cur with
  | some t, some c =>
    if t.shape = c.shape then .ok (some t)
    else .error "RuntimeError: size mismatch in loading state_dict"
  | some _, none => .error "RuntimeError: unexpected key in state_dict"
  | none, some _ => .error "RuntimeError: missing key in state_dict"
  | none, none => .ok none

/-- `mod.load_state_dict(bn_state)` (strict) on a batch-normalization
node: each of the five possible state entries loaded as `loadField`. -/
def bn2dLoadStateDict (mod : BatchNorm2d) (sd : List (String × Tensor)) :
    Except String BatchNorm2d :=
  match loadField sd "weight" mod.weight with
  | .error e => .error e
  | .ok w =>
    match loadField sd "bias" mod.bias with
    | .error e => .error e
    | .ok b =>
      match loadField sd "running_mean" mod.running_mean with
      | .error e => .error e
      | .ok rm =>
        match loadField sd "running_var" mod.running_var with
        | .error e => .error e
        | .ok rv =>
          match loadField sd "num_batches_tracked" mod.num_batches_tracked with
          | .error e => .error e
          | .ok nbt =>
            .ok { mod with weight := w, bias := b, running_mean := rm,
                           running_var := rv, num_batches_tracked := nbt }

/-- `expand_BatchNorm1d(bn1d)` (`export_utils.py` lines 40–52): `None`
for a node that is not 1-D batch normalization; otherwise construct a
2-D node with identical scalar configuration and load the source's
state dict into it.  A fresh `nn.BatchNorm2d` has no submodules. -/
def expand_BatchNorm1d (m : Module) : Except String (Option Module) :=
  match m.kind with
  | Kind.batchNorm1d b =>
    let mod := batchNorm2dInit b.num_features b.eps b.momentum b.affine b.track_running_stats
    let bn_state := bnStateDict b.weight b.bias b.running_mean b.running_var
      b.num_batches_tracked
    match bn2dLoadStateDict mod bn_state with
    | .error e => .error e
    | .ok mod2 => .ok (some (Module.mk (Kind.batchNorm2d mod2) Children.nil 0))
  | _ => .ok none

/-! ## `simple_expand` -/

/-- `simple_expand(BaseT, DestT)` (`export_utils.py` lines 73–81): the
produced conversion function returns `None` when the node is not an
instance of the source kind (`isBase` is the `isinstance` test, yielding
the configuration attributes read off `mod.__constants__` in declared
order), and otherwise constructs the destination kind positionally from
those values. -/
def simple_expand {α : Type} (isBase : Kind → Option α) (destT : α → Kind)
    (mod : Module) : Option Module :=
  match isBase mod.kind with
  | none => none
  | some args => some (Module.mk (destT args) Children.nil 0)

/-- `isinstance(mod, nn.AdaptiveAvgPool1d)` plus its single
`__constants__` entry `output_size`. -/
def adaptiveAvgPool1dProj : Kind → Option Nat
  | Kind.adaptiveAvgPool1d n => some n
  | _ => none

/-- `isinstance(mod, nn.AvgPool1d)` plus its `__constants__`
(`kernel_size, stride, padding, ceil_mode, count_include_pad`). -/
def avgPool1dProj : Kind → Option AvgPool1d
  | Kind.avgPool1d d => some d
  | _ => none

/-- `nn.AvgPool2d(*args)` applied positionally to `AvgPool1d`'s
configuration values. -/
def avgPool2dOf (d : AvgPool1d) : Kind :=
  Kind.avgPool2d ⟨d.kernel_size, d.stride, d.padding, d.ceil_mode, d.count_include_pad⟩

/-- `simple_expand(nn.AdaptiveAvgPool1d, nn.AdaptiveAvgPool2d)`. -/
def expand_AdaptiveAvgPool1d : Module → Option Module :=
  simple_expand adaptiveAvgPool1dProj Kind.adaptiveAvgPool2d

/-- `simple_expand(nn.AvgPool1d, nn.AvgPool2d)`. -/
def expand_AvgPool1d : Module → Option Module :=
  simple_expand avgPool1dProj avgPool2dOf

/-! ## `swap_expanded` and `auto_expand` -/

/-- A rule table: node-kind identifier → conversion function.  A
conversion function may raise (`expand_Conv1D`'s validation), so its
result is `Except`-valued; the pooling conversions never raise and are
lifted with `.ok`. -/
abbrev Rules := List (String × (Module → Except String (Option Module)))

/-- `setAtPath m segs new`: walk `m` along every segment but the last
(`KeyError` when a segment is missing) and install `new` as the child
named by the last segment.  The walk performs lookups only; the single
dict assignment happens at the located parent, so a failed walk mutates
nothing.  An empty segment list cannot arise from `split(".")`. -/
def setAtPath (m : Module) : List String → Module → Except String Module
  | [], _ => .error "IndexError: empty path"
  | [last], new => .ok (m.setChild last new)
  | s :: r :: rs, new =>
    match m.getChild s with
    | none => .error ("KeyError: " ++ s)
    | some c =>
      match setAtPath c (r :: rs) new with
      | .error e => .error e
      | .ok c2 => .ok (m.setChild s c2)

/-- One iteration of the `swap_expanded` loop, threading the hierarchy
as explicit state: once an entry has raised, the loop is over (first
component `.error`) and the hierarchy stays as it was. -/
def swapStep (st : Except String Unit × Module) (entry : String × Module) :
    Except String Unit × Module :=
  match st.1 with
  | .error _ => st
  | .ok _ =>
    match setAtPath st.2 (splitDot entry.1) entry.2 with
    | .error e => (.error e, st.2)
    | .ok m2 => (.ok (), m2)

/-- `swap_expanded(model, mapping)` (`export_utils.py` lines 55–70) with
the in-place mutation made explicit: the first component is the call's
outcome (the returned hierarchy, or the exception), the second the
hierarchy as the caller observes it afterwards. -/
def swap_expandedSt (model : Module) (mapping : List (String × Module)) :
    Except String Module × Module :=
  match mapping.foldl swapStep (Except.ok (), model) with
  | (.ok _, m) => (.ok m, m)
  | (.error e, m) => (.error e, m)

/-- `swap_expanded`'s return value: the same (mutated) hierarchy, or the
exception. -/
def swap_expanded (model : Module) (mapping : List (String × Module)) :
    Except String Module :=
  (swap_expandedSt model mapping).1

/-- The loop body of `auto_expand` over `model.named_modules()`: look up
each node's type name in the rule table; on a hit run the conversion
(exceptions propagate), and record a non-`None` result under the node's
full dotted name, in enumeration order. -/
def buildMappingAux (rules : Rules) :
    List (String × Module) → Except String (List (String × Module))
  | [] => .ok []
  | (name, m) :: rest =>
    match List.lookup m.kind.typeName rules with
    | none => buildMappingAux rules rest
    | some f =>
      match f m with
      | .error e => .error e
      | .ok none => buildMappingAux rules rest
      | .ok (some swapped) =>
        match buildMappingAux rules rest with
        | .error e => .error e
        | .ok tail => .ok ((name, swapped) :: tail)

/-- The complete replacement mapping `auto_expand` builds before any
substitution. -/
def buildMapping (rules : Rules) (model : Module) :
    Except String (List (String × Module)) :=
  buildMappingAux rules (namedModules model)

/-- The default rule table of `auto_expand`. -/
def defaultExpansions (torch : Torch) : Rules :=
  [("Conv1d", expand_Conv1D torch),
   ("BatchNorm1d", expand_BatchNorm1d),
   ("AdaptiveAvgPool1d", fun m => .ok (expand_AdaptiveAvgPool1d m)),
   ("AvgPool1d", fun m => .ok (expand_AvgPool1d m))]

/-- `auto_expand(model, expansions=...)` (`export_utils.py` lines
84–104) with the in-place mutation made explicit, as in
`swap_expandedSt`: resolve the optional rule table to the default,
build the complete replacement mapping (a conversion error propagates
with the hierarchy untouched, since no substitution has happened yet),
emit the diagnostic count to the external logging sink (not modelled),
then perform one in-place substitution pass and return the hierarchy. -/
def auto_expandSt (torch : Torch) (model : Module) (expansions : Option Rules) :
    Except String Module × Module :=
  let rules := expansions.getD (defaultExpansions torch)
  match buildMapping rules model with
  | .error e => (.error e, model)
  | .ok mapping => swap_expandedSt model mapping

/-- `auto_expand`'s return value. -/
def auto_expand (torch : Torch) (model : Module) (expansions : Option Rules) :
    Except String Module :=
  (auto_expandSt torch model expansions).1

/-! ## Concrete fixtures used by witness theorems -/

/-- An oracle whose two forward passes return identical outputs: the
validation difference is 0 and the convolution check passes. -/
def zeroTorch : Torch :=
  { rand := fun _ shape => ⟨shape, List.replicate (shape.foldl (· * ·) 1) 0⟩
    conv1dForward := fun _ _ => ⟨[1], [0]⟩
    conv2dForward := fun _ _ => ⟨[1], [0]⟩ }

/-- An oracle under which the two forward passes differ by 1 in mean, so
the convolution validation check fails. -/
def divergentTorch : Torch :=
  { rand := fun _ shape => ⟨shape, List.replicate (shape.foldl (· * ·) 1) 0⟩
    conv1dForward := fun _ _ => ⟨[1], [1]⟩
    conv2dForward := fun _ _ => ⟨[1], [0]⟩ }

/-- A concrete 1-D convolution node. -/
def convSample : Conv1d :=
  { in_channels := 2, out_channels := 3, kernel_size := 5, stride := 1, padding := 2,
    dilation := 1, groups := 1, padding_mode := "zeros",
    weight := ⟨[3, 2, 5], List.replicate 30 1⟩, bias := some ⟨[3], [1, 2, 3]⟩ }

/-- The concrete convolution as a hierarchy node. -/
def convModule : Module := Module.mk (Kind.conv1d convSample) Children.nil 7

/-- The node `expand_Conv1D` constructs from `convSample`. -/
def convSampleExpanded : Module :=
  Module.mk (Kind.conv2d
    { in_channels := 2, out_channels := 3, kernel_size := (5, 1), stride := (1, 1),
      padding := (2, 0), dilation := (1, 1), groups := 1, padding_mode := "zeros",
      weight := ⟨[3, 2, 5, 1], List.replicate 30 1⟩, bias := some ⟨[3], [1, 2, 3]⟩ })
    Children.nil 0

/-- A small hierarchy: a root container with a submodule `a` holding the
convolution at `a.c`, and a sibling leaf `b`. -/
def modelA : Module :=
  Module.mk (Kind.other "MyModel")
    (Children.cons "a" (Module.mk (Kind.other "Sub")
        (Children.cons "c" convModule Children.nil) 2)
      (Children.cons "b" (Module.mk (Kind.other "Linear") Children.nil 3) Children.nil)) 1

/-- A non-matching leaf node. -/
def linearModule : Module := Module.mk (Kind.other "Linear") Children.nil 3

/-- A concrete well-formed 1-D batch-normalization node. -/
def bnSample : BatchNorm1d :=
  { num_features := 2, eps := mkRat 1 100000, momentum := some (mkRat 1 10), affine := true,
    track_running_stats := true, weight := some ⟨[2], [5, 6]⟩, bias := some ⟨[2], [7, 8]⟩,
    running_mean := some ⟨[2], [0, 0]⟩, running_var := some ⟨[2], [1, 1]⟩,
    num_batches_tracked := some ⟨[], [4]⟩ }

/-! ## C1: the node constructed by `expand_Conv1D` -/

/-- **C1.** For every node that is a 1-D convolution, whenever
`expand_Conv1D` returns (its validation not having raised), it returns a
2-D convolution node whose kernel size, stride and dilation are the
original values paired with 1, whose padding is the original value
paired with 0, whose in/out channel counts, group count and padding mode
equal the original's, whose bias is the very same object as the
original's bias, and whose weight tensor is the original weight with one
trailing singleton dimension appended. -/
theorem expand_Conv1D_constructs (torch : Torch) (c : Conv1d) (cs : Children) (u : Nat)
    (r : Option Module)
    (h : expand_Conv1D torch (Module.mk (Kind.conv1d c) cs u) = .ok r) :
    r = some (Module.mk (Kind.conv2d
      { in_channels := c.in_channels
        out_channels := c.out_channels
        kernel_size := (c.kernel_size, 1)
        stride := (c.stride, 1)
        padding := (c.padding, 0)
        dilation := (c.dilation, 1)
        groups := c.groups
        padding_mode := c.padding_mode
        weight := { shape := c.weight.shape ++ [1], data := c.weight.data }
        bias := c.bias }) Children.nil 0) := by
  unfold expand_Conv1D at h
  simp only [Module.kind] at h
  by_cases h0 : convCheckFails torch c (expandedConv c) 0
  · simp [h0] at h
  · by_cases h1 : convCheckFails torch c (expandedConv c) 1
    · simp [h0, h1] at h
    · simp only [h0, h1, if_false, Bool.false_eq_true, ite_false] at h
      cases h
      rfl

/-- Witness for C1: under `zeroTorch` the expansion of `convSample`
returns, and the constructed node is as the theorem states. -/
theorem expand_Conv1D_constructs_witness :
    some convSampleExpanded = some (Module.mk (Kind.conv2d
      { in_channels := convSample.in_channels
        out_channels := convSample.out_channels
        kernel_size := (convSample.kernel_size, 1)
        stride := (convSample.stride, 1)
        padding := (convSample.padding, 0)
        dilation := (convSample.dilation, 1)
        groups := convSample.groups
        padding_mode := convSample.padding_mode
        weight := { shape := convSample.weight.shape ++ [1], data := convSample.weight.data }
        bias := convSample.bias }) Children.nil 0) :=
  expand_Conv1D_constructs zeroTorch convSample Children.nil 7 (some convSampleExpanded) rfl

/-! ## C2: a failed conversion leaves the hierarchy untouched -/

/-- **C2.** For every model hierarchy and rule table, if a conversion
function raises while `auto_expand` builds the replacement mapping, the
pass aborts with that error and the hierarchy state after the call is
exactly the model passed in: no substitution is applied, because
in-place substitution runs only after the complete mapping has been
built. -/
theorem auto_expand_error_leaves_model (torch : Torch) (model : Module)
    (expansions : Option Rules) (e : String)
    (h : buildMapping (expansions.getD (defaultExpansions torch)) model = .error e) :
    auto_expandSt torch model expansions = (.error e, model) := by
  simp only [auto_expandSt]
  rw [h]

/-- Witness for C2: under `divergentTorch` the conversion of the
convolution at `a.c` raises, and `auto_expand` leaves `modelA` exactly
as it was. -/
theorem auto_expand_error_leaves_model_witness :
    auto_expandSt divergentTorch modelA none
      = (.error "ValueError: Unable to expand Conv1D to Conv2D", modelA) :=
  auto_expand_error_leaves_model divergentTorch modelA none
    "ValueError: Unable to expand Conv1D to Conv2D" rfl

/-! ## C5: filtered invocation -/

/-- **C5.** `run_injected` drops each named argument whose key is not
among the callable's introspected parameter names and binds the rest
against the declared signature with the callable's own defaults; in
particular, for `foo(x, y=1, *, z=None)`:
`run_injected(foo, 5, a=4, b=5, z=6) = (5, 1, 6)`,
`run_injected(foo, 5) = (5, 1, None)`, and
`run_injected(foo, 5, u=None) = (5, 1, None)`. -/
theorem run_injected_drops_and_binds :
    (∀ (fn : PyFunction) (args : List Value) (ks1 ks2 : List (String × Value))
        (k : String) (v : Value), k ∉ paramNames fn.sig →
        run_injected fn args (ks1 ++ (k, v) :: ks2) = run_injected fn args (ks1 ++ ks2)) ∧
    run_injected foo [Value.int 5]
        [("a", Value.int 4), ("b", Value.int 5), ("z", Value.int 6)]
      = .ok (Value.tuple [Value.int 5, Value.int 1, Value.int 6]) ∧
    run_injected foo [Value.int 5] []
      = .ok (Value.tuple [Value.int 5, Value.int 1, Value.null]) ∧
    run_injected foo [Value.int 5] [("u", Value.null)]
      = .ok (Value.tuple [Value.int 5, Value.int 1, Value.null]) := by
  refine ⟨?_, rfl, rfl, rfl⟩
  intro fn args ks1 ks2 k v hk
  have hfilter :
      List.filter (fun kv => decide (kv.1 ∈ paramNames fn.sig)) (ks1 ++ (k, v) :: ks2)
        = List.filter (fun kv => decide (kv.1 ∈ paramNames fn.sig)) (ks1 ++ ks2) := by
    simp [List.filter_append, List.filter_cons, hk]
  simp only [run_injected, injectedEnv]
  rw [hfilter]

/-- Witness for C5's universally quantified conjunct: the extraneous key
`"a"` is silently dropped for `foo`. -/
theorem run_injected_drops_and_binds_witness :
    run_injected foo [Value.int 5] ([] ++ ("a", Value.int 4) :: [("z", Value.int 6)])
      = run_injected foo [Value.int 5] ([] ++ [("z", Value.int 6)]) :=
  run_injected_drops_and_binds.1 foo [Value.int 5] [] [("z", Value.int 6)] "a"
    (Value.int 4) (by decide)

/-! ## C7: wrong-kind inputs yield the no-match marker -/

/-- **C7.** For every input node not of the expected source kind, each
conversion function — 1-D convolution expansion, 1-D batch-normalization
expansion, and any function produced by `simple_expand` — returns the
no-match marker (`None`) rather than raising, and constructs nothing. -/
theorem expand_wrong_kind_no_match :
    (∀ (torch : Torch) (m : Module), (∀ c, m.kind ≠ Kind.conv1d c) →
        expand_Conv1D torch m = .ok none) ∧
    (∀ m : Module, (∀ b, m.kind ≠ Kind.batchNorm1d b) →
        expand_BatchNorm1d m = .ok none) ∧
    (∀ (α : Type) (isBase : Kind → Option α) (destT : α → Kind) (m : Module),
        isBase m.kind = none → simple_expand isBase destT m = none) := by
  refine ⟨?_, ?_, ?_⟩
  · intro torch m h
    unfold expand_Conv1D
    cases hk : m.kind
    case conv1d c => exact absurd hk (h c)
    all_goals rfl
  · intro m h
    unfold expand_BatchNorm1d
    cases hk : m.kind
    case batchNorm1d b => exact absurd hk (h b)
    all_goals rfl
  · intro α isBase destT m h
    unfold simple_expand
    rw [h]

/-- Witness for C7 at a concrete non-matching node. -/
theorem expand_wrong_kind_no_match_witness :
    expand_Conv1D zeroTorch linearModule = .ok none ∧
    expand_BatchNorm1d linearModule = .ok none ∧
    simple_expand adaptiveAvgPool1dProj Kind.adaptiveAvgPool2d linearModule = none :=
  ⟨expand_wrong_kind_no_match.1 zeroTorch linearModule (fun _ h => Kind.noConfusion h),
   expand_wrong_kind_no_match.2.1 linearModule (fun _ h => Kind.noConfusion h),
   expand_wrong_kind_no_match.2.2 Nat adaptiveAvgPool1dProj Kind.adaptiveAvgPool2d
     linearModule rfl⟩

/-! ## C9: the convolution validation check -/

/-- One validation iteration fails exactly when the absolute difference
of the two output means exceeds 1e-6. -/
theorem convCheckFails_iff (torch : Torch) (c : Conv1d) (d : Conv2d) (i : Nat) :
    convCheckFails torch c d i = true ↔
      mkRat 1 1000000 <
        qabs (qsub (torch.conv1dForward c (torch.rand i [1, c.in_channels, 256])).mean
          ((torch.conv2dForward d
            (torch.rand i [1, c.in_channels, 256]).unsqueezeLast).squeeze.mean)) := by
  simp [convCheckFails]

/-- **C9.** For every 1-D convolution node, the expansion's validation
runs the original and the constructed 2-D node on two sampled random
inputs of shape (batch 1, original channel count, length 256), compares
the scalar mean of each output (the 2-D node's output collapsed on the
singleton dimension), and raises a construction error if and only if the
absolute difference of the means exceeds 1e-6 on either sample. -/
theorem expand_Conv1D_validates (torch : Torch) (c : Conv1d) (cs : Children) (u : Nat) :
    (∃ e, expand_Conv1D torch (Module.mk (Kind.conv1d c) cs u) = .error e) ↔
    (∃ i, i < 2 ∧
      mkRat 1 1000000 <
        qabs (qsub (torch.conv1dForward c (torch.rand i [1, c.in_channels, 256])).mean
          ((torch.conv2dForward (expandedConv c)
            (torch.rand i [1, c.in_channels, 256]).unsqueezeLast).squeeze.mean))) := by
  constructor
  · rintro ⟨e, he⟩
    unfold expand_Conv1D at he
    simp only [Module.kind] at he
    by_cases h0 : convCheckFails torch c (expandedConv c) 0
    · exact ⟨0, by omega, (convCheckFails_iff torch c (expandedConv c) 0).1 h0⟩
    · by_cases h1 : convCheckFails torch c (expandedConv c) 1
      · exact ⟨1, by omega, (convCheckFails_iff torch c (expandedConv c) 1).1 h1⟩
      · simp [h0, h1] at he
  · rintro ⟨i, hi, hP⟩
    unfold expand_Conv1D
    simp only [Module.kind]
    interval_cases i
    · rw [if_pos ((convCheckFails_iff torch c (expandedConv c) 0).2 hP)]
      exact ⟨_, rfl⟩
    · by_cases h0 : convCheckFails torch c (expandedConv c) 0
      · rw [if_pos h0]
        exact ⟨_, rfl⟩
      · rw [if_neg h0, if_pos ((convCheckFails_iff torch c (expandedConv c) 1).2 hP)]
        exact ⟨_, rfl⟩

/-! ## C3: batch-normalization state round trip -/

/-- Looking up `"weight"` in a batch-norm state dict yields exactly the
weight slot. -/
theorem bnStateDict_weight (w bi rm rv nbt : Option Tensor) :
    List.lookup "weight" (bnStateDict w bi rm rv nbt) = w := by
  cases w <;> cases bi <;> cases rm <;> cases rv <;> cases nbt <;> rfl

/-- Looking up `"bias"` in a batch-norm state dict yields the bias slot. -/
theorem bnStateDict_bias (w bi rm rv nbt : Option Tensor) :
    List.lookup "bias" (bnStateDict w bi rm rv nbt) = bi := by
  cases w <;> cases bi <;> cases rm <;> cases rv <;> cases nbt <;> rfl

/-- Looking up `"running_mean"` yields the running-mean slot. -/
theorem bnStateDict_running_mean (w bi rm rv nbt : Option Tensor) :
    List.lookup "running_mean" (bnStateDict w bi rm rv nbt) = rm := by
  cases w <;> cases bi <;> cases rm <;> cases rv <;> cases nbt <;> rfl

/-- Looking up `"running_var"` yields the running-variance slot. -/
theorem bnStateDict_running_var (w bi rm rv nbt : Option Tensor) :
    List.lookup "running_var" (bnStateDict w bi rm rv nbt) = rv := by
  cases w <;> cases bi <;> cases rm <;> cases rv <;> cases nbt <;> rfl

/-- Looking up `"num_batches_tracked"` yields the update-count slot. -/
theorem bnStateDict_num_batches_tracked (w bi rm rv nbt : Option Tensor) :
    List.lookup "num_batches_tracked" (bnStateDict w bi rm rv nbt) = nbt := by
  cases w <;> cases bi <;> cases rm <;> cases rv <;> cases nbt <;> rfl

/-- A successful strict load of one state entry returns exactly the
incoming dict's value at that key. -/
theorem loadField_ok (sd : List (String × Tensor)) (k : String) (cur v : Option Tensor)
    (h : loadField sd k cur = .ok v) : v = List.lookup k sd := by
  unfold loadField at h
  rcases hl : List.lookup k sd with _ | t <;> rcases hc : cur with _ | c <;>
    rw [hl, hc] at h <;> dsimp only at h
  · cases h; rfl
  · cases h
  · cases h
  · by_cases hs : t.shape = c.shape
    · rw [if_pos hs] at h
      cases h; rfl
    · rw [if_neg hs] at h
      cases h

/-- **C3.** For every 1-D batch-normalization node, whenever
`expand_BatchNorm1d` returns a node, that node is a 2-D
batch-normalization node with identical feature count, epsilon,
momentum, affine flag and running-stats tracking flag, and its entire
learned/running state (weight, bias, running mean, running variance,
update count) equals the source node's state value for value. -/
theorem expand_BatchNorm1d_preserves (b : BatchNorm1d) (cs : Children) (u : Nat)
    (m2 : Module)
    (h : expand_BatchNorm1d (Module.mk (Kind.batchNorm1d b) cs u) = .ok (some m2)) :
    ∃ d : BatchNorm2d, m2 = Module.mk (Kind.batchNorm2d d) Children.nil 0 ∧
      d.num_features = b.num_features ∧ d.eps = b.eps ∧ d.momentum = b.momentum ∧
      d.affine = b.affine ∧ d.track_running_stats = b.track_running_stats ∧
      d.weight = b.weight ∧ d.bias = b.bias ∧ d.running_mean = b.running_mean ∧
      d.running_var = b.running_var ∧ d.num_batches_tracked = b.num_batches_tracked := by
  unfold expand_BatchNorm1d at h
  simp only [Module.kind] at h
  set mod := batchNorm2dInit b.num_features b.eps b.momentum b.affine b.track_running_stats
    with hmod
  set sd := bnStateDict b.weight b.bias b.running_mean b.running_var b.num_batches_tracked
    with hsd
  rcases hld : bn2dLoadStateDict mod sd with e | mod2 <;> rw [hld] at h
  · cases h
  · cases h
    unfold bn2dLoadStateDict at hld
    rcases hw : loadField sd "weight" mod.weight with e | w <;> rw [hw] at hld
    · cases hld
    rcases hb : loadField sd "bias" mod.bias with e | bi <;> rw [hb] at hld
    · cases hld
    rcases hrm : loadField sd "running_mean" mod.running_mean with e | rm <;> rw [hrm] at hld
    · cases hld
    rcases hrv : loadField sd "running_var" mod.running_var with e | rv <;> rw [hrv] at hld
    · cases hld
    rcases hnbt : loadField sd "num_batches_tracked" mod.num_batches_tracked with e | nbt <;>
      rw [hnbt] at hld
    · cases hld
    cases hld
    refine ⟨_, rfl, rfl, rfl, rfl, rfl, rfl, ?_, ?_, ?_, ?_, ?_⟩
    · rw [loadField_ok sd "weight" mod.weight w hw, hsd, bnStateDict_weight]
    · rw [loadField_ok sd "bias" mod.bias bi hb, hsd, bnStateDict_bias]
    · rw [loadField_ok sd "running_mean" mod.running_mean rm hrm, hsd,
        bnStateDict_running_mean]
    · rw [loadField_ok sd "running_var" mod.running_var rv hrv, hsd,
        bnStateDict_running_var]
    · rw [loadField_ok sd "num_batches_tracked" mod.num_batches_tracked nbt hnbt, hsd,
        bnStateDict_num_batches_tracked]

/-- The 2-D node constructed from `bnSample`. -/
def bnSampleExpanded : BatchNorm2d :=
  { num_features := 2, eps := mkRat 1 100000, momentum := some (mkRat 1 10), affine := true,
    track_running_stats := true, weight := some ⟨[2], [5, 6]⟩, bias := some ⟨[2], [7, 8]⟩,
    running_mean := some ⟨[2], [0, 0]⟩, running_var := some ⟨[2], [1, 1]⟩,
    num_batches_tracked := some ⟨[], [4]⟩ }

/-- Witness for C3: expanding the concrete node `bnSample` yields a node
whose configuration and state equal the source's. -/
theorem expand_BatchNorm1d_preserves_witness :
    ∃ d : BatchNorm2d,
      Module.mk (Kind.batchNorm2d bnSampleExpanded) Children.nil 0
        = Module.mk (Kind.batchNorm2d d) Children.nil 0 ∧
      d.num_features = bnSample.num_features ∧ d.eps = bnSample.eps ∧
      d.momentum = bnSample.momentum ∧ d.affine = bnSample.affine ∧
      d.track_running_stats = bnSample.track_running_stats ∧
      d.weight = bnSample.weight ∧ d.bias = bnSample.bias ∧
      d.running_mean = bnSample.running_mean ∧ d.running_var = bnSample.running_var ∧
      d.num_batches_tracked = bnSample.num_batches_tracked :=
  expand_BatchNorm1d_preserves bnSample Children.nil 9
    (Module.mk (Kind.batchNorm2d bnSampleExpanded) Children.nil 0) rfl


/-! ## C4: in-place substitution by dotted path -/

/-- Assigning key `k` then looking `k` up yields the new value. -/
theorem Children.lookup_set_self (cs : Children) (k : String) (v : Module) :
    (cs.set k v).lookup k = some v :=
  match cs with
  | .nil => by simp [Children.set, Children.lookup]
  | .cons n c rest => by
    by_cases h : n = k
    · subst h; simp [Children.set, Children.lookup]
    · simp [Children.set, Children.lookup, h, Children.lookup_set_self rest k v]

/-- Assigning key `k` leaves every other key's binding unchanged. -/
theorem Children.lookup_set_ne (cs : Children) (k n : String) (v : Module) (h : k ≠ n) :
    (cs.set k v).lookup n = cs.lookup n :=
  match cs with
  | .nil => by simp [Children.set, Children.lookup, h]
  | .cons n' c rest => by
    by_cases h' : n' = k
    · subst h'; simp [Children.set, Children.lookup, h]
    · by_cases h2 : n' = n
      · subst h2
        simp [Children.set, Children.lookup, h']
      · simp [Children.set, Children.lookup, h', h2, Children.lookup_set_ne rest k n v h]

/-- `setChild` then `getChild` at the same name yields the new child. -/
theorem Module.getChild_setChild_self (m v : Module) (k : String) :
    (m.setChild k v).getChild k = some v := by
  cases m
  simp [Module.setChild, Module.getChild, Module.children, Children.lookup_set_self]

/-- `setChild` leaves every other child binding unchanged. -/
theorem Module.getChild_setChild_ne (m v : Module) (k n : String) (h : k ≠ n) :
    (m.setChild k v).getChild n = m.getChild n := by
  cases m
  simp [Module.setChild, Module.getChild, Module.children, Children.lookup_set_ne _ _ _ _ h]

/-- `setChild` mutates the node in place: its identity is preserved. -/
theorem Module.uid_setChild (m v : Module) (k : String) :
    (m.setChild k v).uid = m.uid := by
  cases m; rfl

/-- Walking from a node whose first step resolves. -/
theorem walk_cons_some (s : String) (rest : List String) (m c : Module)
    (hg : m.getChild s = some c) : walk (s :: rest) m = walk rest c := by
  simp [walk, hg]

/-- Walking from a node whose first step is missing. -/
theorem walk_cons_none (s : String) (rest : List String) (m : Module)
    (hg : m.getChild s = none) : walk (s :: rest) m = none := by
  simp [walk, hg]

/-- `setAtPath` on a single segment is one dict assignment at the root. -/
theorem setAtPath_single (m new : Module) (lastSeg : String) :
    setAtPath m [lastSeg] new = .ok (m.setChild lastSeg new) := rfl

/-- Building a successful multi-segment `setAtPath` step. -/
theorem setAtPath_cons (m c c2 new : Module) (s : String) (rest : List String)
    (hne : rest ≠ []) (hg : m.getChild s = some c)
    (hs : setAtPath c rest new = .ok c2) :
    setAtPath m (s :: rest) new = .ok (m.setChild s c2) := by
  rcases rest with _ | ⟨r1, rs⟩
  · exact absurd rfl hne
  · unfold setAtPath
    rw [hg]
    dsimp only
    rw [hs]

/-- Inverting a successful multi-segment `setAtPath` step. -/
theorem setAtPath_cons_inv (m new r : Module) (s : String) (rest : List String)
    (hne : rest ≠ []) (h : setAtPath m (s :: rest) new = .ok r) :
    ∃ c c2, m.getChild s = some c ∧ setAtPath c rest new = .ok c2 ∧
      r = m.setChild s c2 := by
  rcases rest with _ | ⟨r1, rs⟩
  · exact absurd rfl hne
  · unfold setAtPath at h
    rcases hg : m.getChild s with _ | c <;> rw [hg] at h <;> dsimp only at h
    · cases h
    · rcases hs : setAtPath c (r1 :: rs) new with e | c2 <;> rw [hs] at h <;> dsimp only at h
      · cases h
      · cases h
        exact ⟨c, c2, rfl, hs, rfl⟩

/-- When the walk to the parent resolves, `setAtPath` succeeds. -/
theorem setAtPath_ok_of_walk (new : Module) (lastSeg : String) :
    ∀ (pre : List String) (m : Module), walk pre m ≠ none →
      ∃ r, setAtPath m (pre ++ [lastSeg]) new = .ok r := by
  intro pre
  induction pre with
  | nil => exact fun m _ => ⟨m.setChild lastSeg new, setAtPath_single m new lastSeg⟩
  | cons s pre2 ih =>
    intro m hw
    rcases hg : m.getChild s with _ | c
    · exact absurd (walk_cons_none s pre2 m hg) hw
    · have hw2 : walk pre2 c ≠ none := by
        intro hcontra
        exact hw ((walk_cons_some s pre2 m c hg).trans hcontra)
      obtain ⟨r2, hr2⟩ := ih c hw2
      exact ⟨m.setChild s r2,
        setAtPath_cons m c r2 new s (pre2 ++ [lastSeg]) (by simp) hg hr2⟩

/-- After substitution, the child named by the last segment under the
parent reached by the non-final segments is exactly the new node. -/
theorem setAtPath_walk_target (new : Module) (lastSeg : String) :
    ∀ (pre : List String) (m r : Module),
      setAtPath m (pre ++ [lastSeg]) new = .ok r →
      walk (pre ++ [lastSeg]) r = some new := by
  intro pre
  induction pre with
  | nil =>
    intro m r h
    rw [List.nil_append] at h ⊢
    rw [setAtPath_single] at h
    cases h
    rw [walk_cons_some lastSeg [] _ new (Module.getChild_setChild_self m new lastSeg)]
    rfl
  | cons s pre2 ih =>
    intro m r h
    rw [List.cons_append] at h ⊢
    obtain ⟨c, c2, hg, hs, hr⟩ := setAtPath_cons_inv m new r s (pre2 ++ [lastSeg])
      (by simp) h
    subst hr
    rw [walk_cons_some s _ _ c2 (Module.getChild_setChild_self m c2 s)]
    exact ih c c2 hs

/-- Frame property: a node whose path neither extends nor is extended by
the substituted path is untouched (value-identical, hence the same
reference). -/
theorem setAtPath_frame (new : Module) :
    ∀ (segs : List String) (m r : Module), setAtPath m segs new = .ok r →
      ∀ q : List String, ¬ q <+: segs → ¬ segs <+: q → walk q r = walk q m := by
  intro segs
  induction segs with
  | nil => intro m r h; cases h
  | cons s rest ih =>
    intro m r h q hq1 hq2
    rcases rest with _ | ⟨r1, rs⟩
    · rw [setAtPath_single] at h
      cases h
      rcases q with _ | ⟨n, q2⟩
      · exact absurd (List.nil_prefix) hq1
      · by_cases hn : n = s
        · subst hn
          exact absurd ⟨q2, rfl⟩ hq2
        · have hgc := Module.getChild_setChild_ne m new s n (fun hh => hn hh.symm)
          rcases hgq : m.getChild n with _ | cq
          · rw [walk_cons_none n q2 _ (hgc.trans hgq), walk_cons_none n q2 m hgq]
          · rw [walk_cons_some n q2 _ cq (hgc.trans hgq), walk_cons_some n q2 m cq hgq]
    · obtain ⟨c, c2, hg, hs, hr⟩ := setAtPath_cons_inv m new r s (r1 :: rs) (by simp) h
      subst hr
      rcases q with _ | ⟨n, q2⟩
      · exact absurd (List.nil_prefix) hq1
      · by_cases hn : n = s
        · subst hn
          have hq1b : ¬ q2 <+: r1 :: rs := by
            intro hp
            rcases hp with ⟨t, ht⟩
            exact hq1 ⟨t, by rw [List.cons_append, ht]⟩
          have hq2b : ¬ r1 :: rs <+: q2 := by
            intro hp
            rcases hp with ⟨t, ht⟩
            exact hq2 ⟨t, by rw [List.cons_append, ht]⟩
          rw [walk_cons_some n q2 _ c2 (Module.getChild_setChild_self m c2 n),
            walk_cons_some n q2 m c hg]
          exact ih c c2 hs q2 hq1b hq2b
        · have hgc := Module.getChild_setChild_ne m c2 s n (fun hh => hn hh.symm)
          rcases hgq : m.getChild n with _ | cq
          · rw [walk_cons_none n q2 _ (hgc.trans hgq), walk_cons_none n q2 m hgq]
          · rw [walk_cons_some n q2 _ cq (hgc.trans hgq), walk_cons_some n q2 m cq hgq]

/-- Nodes strictly on the substituted path (the root and intermediate
parents) are mutated in place: their identity is preserved. -/
theorem setAtPath_uid (new : Module) :
    ∀ (segs : List String) (m r : Module), setAtPath m segs new = .ok r →
      ∀ q : List String, q <+: segs → q ≠ segs →
        (walk q r).map Module.uid = (walk q m).map Module.uid := by
  intro segs
  induction segs with
  | nil => intro m r h; cases h
  | cons s rest ih =>
    intro m r h q hq1 hq2
    rcases rest with _ | ⟨r1, rs⟩
    · rw [setAtPath_single] at h
      cases h
      rcases q with _ | ⟨n, q2⟩
      · simp [walk, Module.uid_setChild]
      · rcases hq1 with ⟨t, ht⟩
        rw [List.cons_append] at ht
        injection ht with h1 h2
        subst h1
        have : q2 = [] := by
          cases q2 with
          | nil => rfl
          | cons a b => simp at h2
        subst this
        exact absurd rfl hq2
    · obtain ⟨c, c2, hg, hs, hr⟩ := setAtPath_cons_inv m new r s (r1 :: rs) (by simp) h
      subst hr
      rcases q with _ | ⟨n, q2⟩
      · simp [walk, Module.uid_setChild]
      · rcases hq1 with ⟨t, ht⟩
        rw [List.cons_append] at ht
        injection ht with h1 h2
        subst h1
        have hq1b : q2 <+: r1 :: rs := ⟨t, h2⟩
        have hq2b : q2 ≠ r1 :: rs := by
          intro hcontra
          exact hq2 (by rw [hcontra])
        rw [walk_cons_some n q2 _ c2 (Module.getChild_setChild_self m c2 n),
          walk_cons_some n q2 m c hg]
        exact ih c c2 hs q2 hq1b hq2b

/-- **C4.** For every hierarchy and every mapping entry with dotted path
whose non-final segments resolve to existing children, in-place
substitution replaces exactly the child named by the final segment of
the node reached by the non-final segments with the replacement node,
leaves every node off that path identically referenced (value-identical)
and every node on the path the same object (identity preserved), and
returns the same mutated hierarchy object that was passed in. -/
theorem swap_expanded_replaces_exactly (model new : Module) (path : String)
    (pre : List String) (lastSeg : String)
    (hsplit : splitDot path = pre ++ [lastSeg])
    (hpar : walk pre model ≠ none) :
    ∃ r, swap_expanded model [(path, new)] = .ok r ∧
      (swap_expandedSt model [(path, new)]).2 = r ∧
      walk (pre ++ [lastSeg]) r = some new ∧
      (∀ q, ¬ q <+: pre ++ [lastSeg] → ¬ pre ++ [lastSeg] <+: q →
        walk q r = walk q model) ∧
      (∀ q, q <+: pre ++ [lastSeg] → q ≠ pre ++ [lastSeg] →
        (walk q r).map Module.uid = (walk q model).map Module.uid) ∧
      r.uid = model.uid := by
  obtain ⟨r, hr⟩ := setAtPath_ok_of_walk new lastSeg pre model hpar
  refine ⟨r, ?_, ?_, setAtPath_walk_target new lastSeg pre model r hr,
    fun q h1 h2 => setAtPath_frame new (pre ++ [lastSeg]) model r hr q h1 h2,
    fun q h1 h2 => setAtPath_uid new (pre ++ [lastSeg]) model r hr q h1 h2, ?_⟩
  · simp [swap_expanded, swap_expandedSt, swapStep, hsplit, hr]
  · simp [swap_expandedSt, swapStep, hsplit, hr]
  · have huid := setAtPath_uid new (pre ++ [lastSeg]) model r hr [] List.nil_prefix
      (by simp)
    simpa [walk] using huid

/-- Witness for C4: substituting `convSampleExpanded` at `"a.c"` in
`modelA`. -/
theorem swap_expanded_replaces_exactly_witness :
    ∃ r, swap_expanded modelA [("a.c", convSampleExpanded)] = .ok r ∧
      (swap_expandedSt modelA [("a.c", convSampleExpanded)]).2 = r ∧
      walk (["a"] ++ ["c"]) r = some convSampleExpanded ∧
      (∀ q, ¬ q <+: ["a"] ++ ["c"] → ¬ ["a"] ++ ["c"] <+: q →
        walk q r = walk q modelA) ∧
      (∀ q, q <+: ["a"] ++ ["c"] → q ≠ ["a"] ++ ["c"] →
        (walk q r).map Module.uid = (walk q modelA).map Module.uid) ∧
      r.uid = modelA.uid :=
  swap_expanded_replaces_exactly modelA convSampleExpanded "a.c" ["a"] "c" rfl
    (fun hcontra => Option.noConfusion hcontra)


/-! ## C10: nothing undeclared reaches the variadic-keyword parameter -/

/-- A successful lookup's binding is present in the association list. -/
theorem lookup_mem {β : Type} (l : List (String × β)) (k : String) (v : β)
    (h : List.lookup k l = some v) : (k, v) ∈ l := by
  induction l with
  | nil => cases h
  | cons e es ih =>
    obtain ⟨ek, ev⟩ := e
    by_cases hek : k = ek
    · subst hek
      simp only [List.lookup, beq_self_eq_true] at h
      cases h
      exact List.mem_cons_self _ _
    · have hbe : (k == ek) = false := beq_eq_false_iff_ne.mpr hek
      simp only [List.lookup, hbe] at h
      exact List.mem_cons_of_mem _ (ih h)

/-- Distinct declared names identify parameters uniquely. -/
theorem paramNames_inj (sig : List Param) (hnod : (paramNames sig).Nodup)
    (p q : Param) (hp : p ∈ sig) (hq : q ∈ sig) (hn : p.name = q.name) : p = q :=
  List.inj_on_of_nodup_map hnod hp hq hn

/-- Every positionally bound argument is bound to a declared
positional-or-keyword parameter's name. -/
theorem bindPositional_names :
    ∀ (sig : List Param) (args : List Value) (pb : List (String × Value)),
      bindPositional sig args = .ok pb →
      ∀ x ∈ pb, ∃ q ∈ sig, q.kind = ParamKind.posOrKw ∧ q.name = x.1 := by
  intro sig
  induction sig with
  | nil =>
    intro args pb h x hx
    cases args with
    | nil =>
      cases h
      exact absurd hx (List.not_mem_nil x)
    | cons a as => cases h
  | cons p ps ih =>
    intro args pb h x hx
    cases args with
    | nil =>
      cases h
      exact absurd hx (List.not_mem_nil x)
    | cons a as =>
      unfold bindPositional at h
      cases hk : p.kind <;> rw [hk] at h <;> dsimp only at h
      case kwOnly => cases h
      case varKw => cases h
      case posOrKw =>
        rcases hrest : bindPositional ps as with e | rest <;> rw [hrest] at h <;>
          dsimp only at h
        · cases h
        · cases h
          rcases List.mem_cons.mp hx with h1 | h1
          · exact ⟨p, List.mem_cons_self p ps, hk, by rw [h1]⟩
          · obtain ⟨q, hq, hq1, hq2⟩ := ih as rest hrest x h1
            exact ⟨q, List.mem_cons_of_mem p hq, hq1, hq2⟩

/-- Every branch of `bindOne` binds the parameter's own name. -/
theorem bindOne_name (pb kw : List (String × Value)) (names : List String) (p : Param)
    (ent : String × Value) (h : bindOne pb kw names p = .ok ent) : ent.1 = p.name := by
  unfold bindOne at h
  rcases hl : pb.lookup p.name with _ | v <;> rw [hl] at h <;> dsimp only at h
  · cases hk : p.kind <;> rw [hk] at h <;> dsimp only at h
    case varKw => cases h; rfl
    all_goals
      rcases hkl : kw.lookup p.name with _ | w <;> rw [hkl] at h <;> dsimp only at h
    case posOrKw.none =>
      rcases hd : p.default with _ | d <;> rw [hd] at h <;> dsimp only at h
      · cases h
      · cases h; rfl
    case posOrKw.some => cases h; rfl
    case kwOnly.none =>
      rcases hd : p.default with _ | d <;> rw [hd] at h <;> dsimp only at h
      · cases h
      · cases h; rfl
    case kwOnly.some => cases h; rfl
  · by_cases hany : kw.any (fun kv => kv.1 = p.name)
    · rw [if_pos hany] at h
      cases h
    · rw [if_neg hany] at h
      cases h; rfl

/-- An unbound variadic-keyword parameter receives exactly the keyword
arguments matching no keyword-bindable name. -/
theorem bindOne_varKw (pb kw : List (String × Value)) (names : List String) (p : Param)
    (hk : p.kind = ParamKind.varKw) (hpb : pb.lookup p.name = none) :
    bindOne pb kw names p
      = .ok (p.name, Value.dict (kw.filter (fun kv => kv.1 ∉ names))) := by
  unfold bindOne
  rw [hpb, hk]

/-- In the environment produced by `bindEach`, a variadic-keyword
parameter not bound positionally is bound to exactly the keyword
arguments matching no keyword-bindable name. -/
theorem bindEach_varKw_lookup (pb kw : List (String × Value)) (names : List String) :
    ∀ (sig : List Param) (env : List (String × Value)),
      bindEach pb kw names sig = .ok env →
      ∀ p ∈ sig, p.kind = ParamKind.varKw → pb.lookup p.name = none →
      (∀ q ∈ sig, q.name = p.name → q = p) →
      env.lookup p.name
        = some (Value.dict (kw.filter (fun kv => kv.1 ∉ names))) := by
  intro sig
  induction sig with
  | nil => intro env h p hp; exact absurd hp (List.not_mem_nil p)
  | cons q ps ih =>
    intro env h p hp hk hpb huniq
    unfold bindEach at h
    rcases hone : bindOne pb kw names q with e | ent <;> rw [hone] at h <;> dsimp only at h
    · cases h
    · rcases hrest : bindEach pb kw names ps with e | renv <;> rw [hrest] at h <;>
        dsimp only at h
      · cases h
      · cases h
        by_cases hqn : q.name = p.name
        · have hqp : q = p := huniq q (List.mem_cons_self q ps) hqn
          subst hqp
          rw [bindOne_varKw pb kw names q hk hpb] at hone
          cases hone
          simp [List.lookup]
        · obtain ⟨en, ev⟩ := ent
          have hname : en = q.name := bindOne_name pb kw names q (en, ev) hone
          subst hname
          have hne : (p.name == q.name) = false :=
            beq_eq_false_iff_ne.mpr (fun hh => hqn hh.symm)
          simp only [List.lookup, hne]
          have hp2 : p ∈ ps := by
            rcases List.mem_cons.mp hp with h1 | h1
            · subst h1
              exact absurd rfl hqn
            · exact h1
          exact ih renv hrest p hp2 hk hpb
            (fun r hr hrn => huniq r (List.mem_cons_of_mem q hr) hrn)

/-- **C10.** For every callable whose declared signature includes a
variadic keyword parameter, `run_injected` still drops every supplied
named argument whose key is not literally one of the declared parameter
names: the dict the variadic-keyword parameter receives holds only
declared names, so no extra named argument is ever forwarded into it. -/
theorem run_injected_varKw_no_extras (fn : PyFunction) (args : List Value)
    (kwargs : List (String × Value)) (env : List (String × Value))
    (hnod : (paramNames fn.sig).Nodup)
    (henv : injectedEnv fn args kwargs = .ok env)
    (p : Param) (hp : p ∈ fn.sig) (hk : p.kind = ParamKind.varKw) :
    ∃ entries, env.lookup p.name = some (Value.dict entries) ∧
      ∀ kv ∈ entries, kv.1 ∈ paramNames fn.sig := by
  unfold injectedEnv bindArgs at henv
  rcases hbp : bindPositional fn.sig args with e | pb <;> rw [hbp] at henv <;>
    dsimp only at henv
  · cases henv
  · have hany : (fn.sig.any fun q => decide (q.kind = ParamKind.varKw)) = true :=
      List.any_eq_true.mpr ⟨p, hp, by simp [hk]⟩
    rw [hany] at henv
    simp only [Bool.not_true, Bool.false_and, Bool.false_eq_true, if_false] at henv
    have hpbnone : pb.lookup p.name = none := by
      rcases hl : pb.lookup p.name with _ | v
      · rfl
      · exfalso
        obtain ⟨q, hq, hq1, hq2⟩ := bindPositional_names fn.sig args pb hbp (p.name, v)
          (lookup_mem pb p.name v hl)
        have hqp : q = p := paramNames_inj fn.sig hnod q p hq hp hq2
        rw [hqp, hk] at hq1
        cases hq1
    refine ⟨(kwargs.filter (fun kv => kv.1 ∈ paramNames fn.sig)).filter
        (fun kv => kv.1 ∉ kwBindableNames fn.sig), ?_, ?_⟩
    · exact bindEach_varKw_lookup pb _ (kwBindableNames fn.sig) fn.sig env henv p hp hk
        hpbnone (fun q hq hqn => paramNames_inj fn.sig hnod q p hq hp hqn)
    · intro kv hkv
      have hmem := List.mem_of_mem_filter hkv
      have := List.of_mem_filter hmem
      simpa using this

/-- A callable `f(x, **kw)` used by the C10 witness. -/
def varKwFn : PyFunction :=
  ⟨[⟨"x", ParamKind.posOrKw, none⟩, ⟨"kw", ParamKind.varKw, none⟩],
   fun env => Value.dict env⟩

/-- Witness for C10: calling `varKwFn` with the extraneous key `"junk"`
and the surviving key `"kw"`; the variadic dict holds only declared
names. -/
theorem run_injected_varKw_no_extras_witness :
    ∃ entries,
      List.lookup "kw"
          [("x", Value.int 1), ("kw", Value.dict [("kw", Value.int 7)])]
        = some (Value.dict entries) ∧
      ∀ kv ∈ entries, kv.1 ∈ paramNames varKwFn.sig :=
  run_injected_varKw_no_extras varKwFn [Value.int 1]
    [("kw", Value.int 7), ("junk", Value.int 2)]
    [("x", Value.int 1), ("kw", Value.dict [("kw", Value.int 7)])]
    (by decide) rfl ⟨"kw", ParamKind.varKw, none⟩
    (List.Mem.tail _ (List.Mem.head _)) rfl


/-! ## C8: unmatched nodes are never substituted -/

/-- A key absent from an association list's keys looks up to nothing. -/
theorem lookup_none_of_not_mem_keys {β : Type} (l : List (String × β)) (k : String)
    (h : k ∉ l.map Prod.fst) : List.lookup k l = none := by
  induction l with
  | nil => rfl
  | cons e es ih =>
    obtain ⟨ek, ev⟩ := e
    simp only [List.map_cons, List.mem_cons] at h
    push_neg at h
    obtain ⟨h1, h2⟩ := h
    have hbe : (k == ek) = false := beq_eq_false_iff_ne.mpr h1
    simp only [List.lookup, hbe]
    exact ih h2

/-- Every entry of the mapping built by `auto_expand` stems from an
enumerated node whose type name hit the rule table and whose conversion
returned a node. -/
theorem buildMappingAux_mem (rules : Rules) :
    ∀ (entries mapping : List (String × Module)),
      buildMappingAux rules entries = .ok mapping →
      ∀ kv ∈ mapping, ∃ m, (kv.1, m) ∈ entries ∧
        ∃ f, List.lookup m.kind.typeName rules = some f ∧ f m = .ok (some kv.2) := by
  intro entries
  induction entries with
  | nil =>
    intro mapping h kv hkv
    cases h
    exact absurd hkv (List.not_mem_nil kv)
  | cons e rest ih =>
    obtain ⟨name, m⟩ := e
    intro mapping h kv hkv
    unfold buildMappingAux at h
    rcases hl : List.lookup m.kind.typeName rules with _ | f <;> rw [hl] at h <;>
      dsimp only at h
    · obtain ⟨m2, hmem, hf⟩ := ih mapping h kv hkv
      exact ⟨m2, List.mem_cons_of_mem _ hmem, hf⟩
    · rcases hfm : f m with e2 | sw <;> rw [hfm] at h <;> (try dsimp only at h)
      · cases h
      · rcases sw with _ | s <;> (try dsimp only at h)
        · obtain ⟨m2, hmem, hf2⟩ := ih mapping h kv hkv
          exact ⟨m2, List.mem_cons_of_mem _ hmem, hf2⟩
        · rcases htail : buildMappingAux rules rest with e2 | tail <;> rw [htail] at h <;>
            dsimp only at h
          · cases h
          · cases h
            rcases List.mem_cons.mp hkv with h1 | h1
            · subst h1
              exact ⟨m, List.mem_cons_self _ _, f, hl, hfm⟩
            · obtain ⟨m2, hmem, hf2⟩ := ih tail htail kv h1
              exact ⟨m2, List.mem_cons_of_mem _ hmem, hf2⟩

/-- **C8.** For every model hierarchy and rule table, a node whose kind
identifier is not a key of the rule table is left identically referenced
by automatic whole-model expansion: its dotted name never becomes a key
of the substitution mapping, so no substitution targets it. -/
theorem auto_expand_skips_unmatched (rules : Rules) (model : Module)
    (mapping : List (String × Module)) (name : String)
    (hmap : buildMapping rules model = .ok mapping)
    (hnom : ∀ m : Module, (name, m) ∈ namedModules model →
      m.kind.typeName ∉ rules.map Prod.fst) :
    name ∉ mapping.map Prod.fst := by
  intro hmem
  obtain ⟨kv, hkv, hfst⟩ := List.mem_map.mp hmem
  obtain ⟨m, hm, f, hf, _⟩ := buildMappingAux_mem rules (namedModules model) mapping
    hmap kv hkv
  rw [hfst] at hm
  rw [lookup_none_of_not_mem_keys rules _ (hnom m hm)] at hf
  cases hf

/-- Witness for C8: in `modelA` the leaf `"b"` has kind `"Linear"`,
which the default rule table does not know; its name is not a key of the
mapping. -/
theorem auto_expand_skips_unmatched_witness :
    "b" ∉ (([("a.c", convSampleExpanded)] : List (String × Module)).map Prod.fst) :=
  auto_expand_skips_unmatched (defaultExpansions zeroTorch) modelA
    [("a.c", convSampleExpanded)] "b" rfl
    (by
      intro m hm
      have hnm : namedModules modelA
          = [("", modelA),
             ("a", Module.mk (Kind.other "Sub")
               (Children.cons "c" convModule Children.nil) 2),
             ("a.c", convModule),
             ("b", Module.mk (Kind.other "Linear") Children.nil 3)] := rfl
      rw [hnm] at hm
      simp only [List.mem_cons, List.not_mem_nil, or_false] at hm
      rcases hm with h | h | h | h
      · simp [modelA] at h
      · simp at h
      · simp [convModule] at h
      · have : m = Module.mk (Kind.other "Linear") Children.nil 3 := by
          injection h with h1 h2
        rw [this]
        decide)


/-! ## C6: keys of the expansion mapping

Auxiliary facts about `split(".")`, well-formed child names, and name
resolution for the enumeration `named_modules`. -/

/-- `String.append` concatenates the underlying character lists. -/
theorem string_data_append (a b : String) : (a ++ b).data = a.data ++ b.data := by
  cases a; cases b; rfl

/-- Unfolding `splitDotAux` on the empty list. -/
theorem splitDotAux_nil (acc : List Char) :
    splitDotAux [] acc = [String.mk acc.reverse] := rfl

/-- Unfolding `splitDotAux` on a cons. -/
theorem splitDotAux_cons (c : Char) (cs acc : List Char) :
    splitDotAux (c :: cs) acc =
      if c = '.' then String.mk acc.reverse :: splitDotAux cs []
      else splitDotAux cs (c :: acc) := rfl

/-- Splitting a dot-free character list yields a single segment. -/
theorem splitDotAux_no_dot : ∀ (l acc : List Char), ('.' : Char) ∉ l →
    splitDotAux l acc = [String.mk (acc.reverse ++ l)] := by
  intro l
  induction l with
  | nil => intro acc _; rw [splitDotAux_nil]; simp
  | cons ch cs ih =>
    intro acc h
    have hch : ¬ ch = '.' := by
      intro hh
      exact h (by rw [← hh]; exact List.mem_cons_self ch cs)
    rw [splitDotAux_cons, if_neg hch,
      ih (ch :: acc) (fun hm => h (List.mem_cons_of_mem ch hm))]
    simp

/-- Splitting around the last dot, when only a dot-free tail follows it,
appends one segment. -/
theorem splitDotAux_append_dot : ∀ (l nd acc : List Char), ('.' : Char) ∉ nd →
    splitDotAux (l ++ '.' :: nd) acc = splitDotAux l acc ++ [String.mk nd] := by
  intro l
  induction l with
  | nil =>
    intro nd acc h
    rw [List.nil_append, splitDotAux_cons, if_pos rfl, splitDotAux_no_dot nd [] h,
      splitDotAux_nil]
    simp
  | cons ch cs ih =>
    intro nd acc h
    rw [List.cons_append, splitDotAux_cons, splitDotAux_cons]
    by_cases hch : ch = '.'
    · rw [if_pos hch, if_pos hch, ih nd [] h, List.cons_append]
    · rw [if_neg hch, if_neg hch]
      exact ih nd (ch :: acc) h

/-- `split(".")` on a dot-free name is that name alone. -/
theorem splitDot_no_dot (s : String) (h : ('.' : Char) ∉ s.data) : splitDot s = [s] := by
  unfold splitDot
  rw [splitDotAux_no_dot s.data [] h]
  cases s
  simp

/-- `split(".")` distributes over appending a dot and a dot-free name. -/
theorem splitDot_append_dot (p n : String) (h : ('.' : Char) ∉ n.data) :
    splitDot (p ++ "." ++ n) = splitDot p ++ [n] := by
  unfold splitDot
  have hd : (p ++ "." ++ n).data = p.data ++ '.' :: n.data := by
    rw [string_data_append, string_data_append]
    simp
  rw [hd, splitDotAux_append_dot p.data n.data [] h]

/-- A non-root child name is never the empty string. -/
theorem childPrefix_ne_empty (pre n : String) (hpre : pre ≠ "") :
    childPrefix pre n ≠ "" := by
  rw [childPrefix, if_neg hpre]
  intro hcon
  have hdata := congrArg String.data hcon
  rw [string_data_append, string_data_append] at hdata
  simp at hdata

/-- Well-formed hierarchy: at every node the child names are distinct,
nonempty and dot-free — the invariants `nn.Module.add_module` enforces
on the keys of `_modules`. -/
inductive Module.WF : Module → Prop where
  | mk : ∀ (kind : Kind) (cs : Children) (u : Nat),
      (cs.toList.map Prod.fst).Nodup →
      (∀ p ∈ cs.toList, p.1 ≠ "" ∧ ('.' : Char) ∉ p.1.data) →
      (∀ p ∈ cs.toList, Module.WF p.2) →
      Module.WF (Module.mk kind cs u)

/-- A successful `Children.lookup` binding is among the children. -/
theorem Children.mem_of_lookup (cs : Children) (k : String) (c : Module)
    (h : cs.lookup k = some c) : (k, c) ∈ cs.toList :=
  match cs with
  | .nil => by cases h
  | .cons n c2 rest => by
    by_cases hn : n = k
    · subst hn
      rw [Children.lookup, if_pos rfl] at h
      cases h
      rw [Children.toList]
      exact List.mem_cons_self _ _
    · rw [Children.lookup, if_neg hn] at h
      rw [Children.toList]
      exact List.mem_cons_of_mem _ (Children.mem_of_lookup rest k c h)

/-- With distinct child names, membership determines the lookup. -/
theorem Children.lookup_of_mem (cs : Children) (k : String) (c : Module)
    (hnod : (cs.toList.map Prod.fst).Nodup) (hmem : (k, c) ∈ cs.toList) :
    cs.lookup k = some c :=
  match cs with
  | .nil => by rw [Children.toList] at hmem; exact absurd hmem (List.not_mem_nil _)
  | .cons n c2 rest => by
    rw [Children.toList] at hmem
    rw [Children.toList, List.map_cons] at hnod
    obtain ⟨hnotin, hnod2⟩ := List.nodup_cons.mp hnod
    rcases List.mem_cons.mp hmem with h1 | h1
    · cases h1
      rw [Children.lookup, if_pos rfl]
    · by_cases hn : n = k
      · exfalso
        subst hn
        exact hnotin (List.mem_map.mpr ⟨(n, c), h1, rfl⟩)
      · rw [Children.lookup, if_neg hn]
        exact Children.lookup_of_mem rest k c hnod2 h1

/-- A well-formed node has no child named by the empty string. -/
theorem getChild_empty_of_wf (m : Module) (hwf : Module.WF m) : m.getChild "" = none := by
  rcases hwf with ⟨kind, cs, u, hnod, hnames, hwfc⟩
  rcases hl : cs.lookup "" with _ | c
  · exact hl
  · exact absurd rfl ((hnames ("", c) (Children.mem_of_lookup cs "" c hl)).1)

/-- Walking a concatenated path walks the pieces in order. -/
theorem walk_append (a b : List String) (m : Module) :
    walk (a ++ b) m = (walk a m).bind (walk b) := by
  induction a generalizing m with
  | nil => simp [walk]
  | cons s a2 ih =>
    rcases hg : m.getChild s with _ | c
    · rw [List.cons_append, walk_cons_none s _ m hg, walk_cons_none s a2 m hg]
      rfl
    · rw [List.cons_append, walk_cons_some s _ m c hg, walk_cons_some s a2 m c hg]
      exact ih c

/-- If a full path resolves, so does the path to its parent. -/
theorem walk_dropLast_isSome (segs : List String) (m n : Module)
    (h : walk segs m = some n) : (walk segs.dropLast m).isSome := by
  rcases hs : segs with _ | ⟨a, rest⟩
  · simp [walk]
  · rw [← hs]
    have hne : segs ≠ [] := by rw [hs]; simp
    have hfull := List.dropLast_append_getLast hne
    rw [← hfull, walk_append] at h
    rcases hw : walk segs.dropLast m with _ | p
    · rw [hw] at h
      cases h
    · simp [hw]


mutual

/-- Every entry `named_modules` enumerates below a node, under a
nonempty prefix, either is that node under the prefix itself or lies at
a nonempty relative segment path that resolves from the node. -/
theorem namedModulesAux_resolve (m : Module) (pre : String) (hwf : Module.WF m)
    (hpre : pre ≠ "") :
    ∀ kn ∈ namedModulesAux pre m,
      ∃ segs : List String, splitDot kn.1 = splitDot pre ++ segs ∧
        ((segs = [] ∧ kn.2 = m) ∨ (segs ≠ [] ∧ walk segs m = some kn.2)) :=
  match m, hwf with
  | Module.mk kind cs u, Module.WF.mk _ _ _ hnod hnames hwfc => by
    intro kn hkn
    rw [namedModulesAux] at hkn
    rcases List.mem_cons.mp hkn with h1 | h1
    · subst h1
      exact ⟨[], by simp, Or.inl ⟨rfl, rfl⟩⟩
    · obtain ⟨cn, c, segs, hmem, hsplit, hrest⟩ :=
        childrenNamed_resolve cs pre hpre hnames hwfc kn h1
      refine ⟨cn :: segs, hsplit, Or.inr ⟨by simp, ?_⟩⟩
      have hlk : Children.lookup cs cn = some c :=
        Children.lookup_of_mem cs cn c hnod hmem
      rw [walk_cons_some cn segs (Module.mk kind cs u) c hlk]
      rcases hrest with ⟨hs, hn⟩ | ⟨hs, hn⟩
      · subst hs
        rw [hn]
        exact rfl
      · exact hn

/-- The children's part of the same enumeration fact. -/
theorem childrenNamed_resolve (cs : Children) (pre : String) (hpre : pre ≠ "")
    (hnames : ∀ p ∈ cs.toList, p.1 ≠ "" ∧ ('.' : Char) ∉ p.1.data)
    (hwfc : ∀ p ∈ cs.toList, Module.WF p.2) :
    ∀ kn ∈ childrenNamed pre cs,
      ∃ (cn : String) (c : Module) (segs : List String), (cn, c) ∈ cs.toList ∧
        splitDot kn.1 = splitDot pre ++ cn :: segs ∧
        ((segs = [] ∧ kn.2 = c) ∨ (segs ≠ [] ∧ walk segs c = some kn.2)) :=
  match cs with
  | Children.nil => by
    intro kn hkn
    rw [childrenNamed] at hkn
    exact absurd hkn (List.not_mem_nil kn)
  | Children.cons n c rest => by
    intro kn hkn
    rw [childrenNamed] at hkn
    rcases List.mem_append.mp hkn with h1 | h1
    · have hmemh : (n, c) ∈ (Children.cons n c rest).toList := by
        rw [Children.toList]
        exact List.mem_cons_self _ _
      have hn := hnames (n, c) hmemh
      have hcp : childPrefix pre n = pre ++ "." ++ n := by
        rw [childPrefix, if_neg hpre]
      obtain ⟨segs, hsplit, hrest⟩ := namedModulesAux_resolve c (childPrefix pre n)
        (hwfc (n, c) hmemh) (childPrefix_ne_empty pre n hpre) kn h1
      refine ⟨n, c, segs, hmemh, ?_, hrest⟩
      rw [hsplit, hcp, splitDot_append_dot pre n hn.2]
      simp
    · obtain ⟨cn, c2, segs, hmem, hsplit, hrest⟩ := childrenNamed_resolve rest pre hpre
        (fun p hp => hnames p (by rw [Children.toList]; exact List.mem_cons_of_mem _ hp))
        (fun p hp => hwfc p (by rw [Children.toList]; exact List.mem_cons_of_mem _ hp))
        kn h1
      refine ⟨cn, c2, segs, ?_, hsplit, hrest⟩
      rw [Children.toList]
      exact List.mem_cons_of_mem _ hmem

end


/-- The root's part of the enumeration fact: children of the root carry
their bare names (empty prefix), so every non-root entry's dotted name
resolves from the root. -/
theorem childrenNamed_root_resolve (cs : Children)
    (hnames : ∀ p ∈ cs.toList, p.1 ≠ "" ∧ ('.' : Char) ∉ p.1.data)
    (hwfc : ∀ p ∈ cs.toList, Module.WF p.2) :
    ∀ kn ∈ childrenNamed "" cs,
      ∃ (cn : String) (c : Module) (segs : List String), (cn, c) ∈ cs.toList ∧
        splitDot kn.1 = cn :: segs ∧
        ((segs = [] ∧ kn.2 = c) ∨ (segs ≠ [] ∧ walk segs c = some kn.2)) :=
  match cs with
  | Children.nil => by
    intro kn hkn
    rw [childrenNamed] at hkn
    exact absurd hkn (List.not_mem_nil kn)
  | Children.cons n c rest => by
    intro kn hkn
    rw [childrenNamed] at hkn
    rcases List.mem_append.mp hkn with h1 | h1
    · have hmemh : (n, c) ∈ (Children.cons n c rest).toList := by
        rw [Children.toList]
        exact List.mem_cons_self _ _
      have hn := hnames (n, c) hmemh
      have hcp : childPrefix "" n = n := by rw [childPrefix, if_pos rfl]
      rw [hcp] at h1
      obtain ⟨segs, hsplit, hrest⟩ := namedModulesAux_resolve c n
        (hwfc (n, c) hmemh) hn.1 kn h1
      refine ⟨n, c, segs, hmemh, ?_, hrest⟩
      rw [hsplit, splitDot_no_dot n hn.2]
      rfl
    · obtain ⟨cn, c2, segs, hmem, hsplit, hrest⟩ := childrenNamed_root_resolve rest
        (fun p hp => hnames p (by rw [Children.toList]; exact List.mem_cons_of_mem _ hp))
        (fun p hp => hwfc p (by rw [Children.toList]; exact List.mem_cons_of_mem _ hp))
        kn h1
      refine ⟨cn, c2, segs, ?_, hsplit, hrest⟩
      rw [Children.toList]
      exact List.mem_cons_of_mem _ hmem

/-- Every entry of `named_modules` is the root under the name `""` or a
node whose dotted name resolves from the root. -/
theorem namedModules_resolve (model : Module) (hwf : Module.WF model) :
    ∀ kn ∈ namedModules model,
      (kn.1 = "" ∧ kn.2 = model) ∨ walk (splitDot kn.1) model = some kn.2 := by
  rcases hwf with ⟨kind, cs, u, hnod, hnames, hwfc⟩
  intro kn hkn
  rw [namedModules, namedModulesAux] at hkn
  rcases List.mem_cons.mp hkn with h1 | h1
  · subst h1
    exact Or.inl ⟨rfl, rfl⟩
  · right
    obtain ⟨cn, c, segs, hmem, hsplit, hrest⟩ :=
      childrenNamed_root_resolve cs hnames hwfc kn h1
    rw [hsplit]
    have hlk : Children.lookup cs cn = some c :=
      Children.lookup_of_mem cs cn c hnod hmem
    rw [walk_cons_some cn segs (Module.mk kind cs u) c hlk]
    rcases hrest with ⟨hs, hn⟩ | ⟨hs, hn⟩
    · subst hs
      rw [hn]
      exact rfl
    · exact hn

/-- Counterexample to C6 as stated: when the root node's own kind is in
the rule table and its conversion matches — here a hierarchy whose root
is itself a 1-D convolution — the mapping does contain the key `""`,
which is precisely the name `named_modules` gives the root; the
subsequent substitution pass then does not replace the root but installs
a spurious child named `""` on it. -/
theorem auto_expand_root_key_counterexample :
    (buildMapping (defaultExpansions zeroTorch) convModule).map (List.map Prod.fst)
      = .ok [""] ∧
    (namedModules convModule).map Prod.fst = [""] ∧
    (auto_expandSt zeroTorch convModule none).2
      = Module.mk (Kind.conv1d convSample)
          (Children.cons "" convSampleExpanded Children.nil) 7 :=
  ⟨rfl, rfl, rfl⟩

/-- **C6 (amended).** For every well-formed hierarchy and every rule
table that yields no conversion for the root node itself, the expansion
mapping built by automatic whole-model expansion satisfies: every path
key resolves to an existing parent in the pre-substitution hierarchy,
and no key names the root (no key is the root's empty name). -/
theorem buildMapping_keys_resolve (rules : Rules) (model : Module)
    (mapping : List (String × Module)) (hwf : Module.WF model)
    (hmap : buildMapping rules model = .ok mapping)
    (hroot : ∀ f s, List.lookup model.kind.typeName rules = some f →
      f model ≠ .ok (some s)) :
    ∀ k ∈ mapping.map Prod.fst,
      k ≠ "" ∧ (walk (splitDot k).dropLast model).isSome := by
  intro k hk
  obtain ⟨kv, hkv, hfst⟩ := List.mem_map.mp hk
  obtain ⟨m, hm, f, hf, hfm⟩ := buildMappingAux_mem rules (namedModules model) mapping
    hmap kv hkv
  subst hfst
  rcases namedModules_resolve model hwf (kv.1, m) hm with ⟨h1, h2⟩ | h2
  · exfalso
    subst h2
    exact hroot f kv.2 hf hfm
  · constructor
    · intro hkeq
      rw [hkeq] at h2
      have h3 : walk [""] model = some m := h2
      rcases hg : model.getChild "" with _ | c
      · rw [walk_cons_none "" [] model hg] at h3
        cases h3
      · rw [getChild_empty_of_wf model hwf] at hg
        cases hg
    · exact walk_dropLast_isSome (splitDot kv.1) model m h2

/-- `modelA` is well formed. -/
theorem modelA_wf : Module.WF modelA := by
  refine Module.WF.mk _ _ _ (by decide) (by decide) ?_
  intro p hp
  rcases List.mem_cons.mp hp with h1 | h1
  · rw [show p.2 = Module.mk (Kind.other "Sub")
        (Children.cons "c" convModule Children.nil) 2 from congrArg Prod.snd h1]
    refine Module.WF.mk _ _ _ (by decide) (by decide) ?_
    intro q hq
    rcases List.mem_cons.mp hq with h2 | h2
    · rw [show q.2 = convModule from congrArg Prod.snd h2]
      exact Module.WF.mk _ _ _ (by decide) (by decide) (fun r hr => absurd hr
        (List.not_mem_nil r))
    · exact absurd h2 (List.not_mem_nil q)
  · rcases List.mem_cons.mp h1 with h2 | h2
    · rw [show p.2 = Module.mk (Kind.other "Linear") Children.nil 3 from
        congrArg Prod.snd h2]
      exact Module.WF.mk _ _ _ (by decide) (by decide) (fun r hr => absurd hr
        (List.not_mem_nil r))
    · exact absurd h2 (List.not_mem_nil p)

/-- Witness for the amended C6 on `modelA` (whose root kind `"MyModel"`
is not in the default rule table): the single key `"a.c"` is nonempty
and its parent `"a"` resolves. -/
theorem buildMapping_keys_resolve_witness :
    "a.c" ≠ "" ∧ (walk (splitDot "a.c").dropLast modelA).isSome :=
  buildMapping_keys_resolve (defaultExpansions zeroTorch) modelA
    [("a.c", convSampleExpanded)] modelA_wf rfl
    (fun f s hf => absurd hf (fun hh => Option.noConfusion hh))
    "a.c" (by decide)

end NeMo
